import Mathlib

/-!
# HotFIX session engine: a shallow embedding and verification

This file embeds the HotFIX FIX-protocol engine exposed by the `hotfix`
Python package.  The repository's `src/` tree contains only the Python
binding layer (`hotfix/protocol.py`, `hotfix/__init__.py`) and an example
script (`examples/simple_new_order.py`); the engine itself (codec,
sequence tracker, session state machine, implemented in the `hotfix_core`
Rust extension) is not shipped here.  Definitions for those parts are
therefore modelled from the specification (its §3 data model, §4
component contracts and §6 wire format) and marked as such in their doc
comments; the Python-level definitions are translated directly from the
source files.

Bytes are modelled as `List Char` (values are text payloads; a byte's
numeric value is `Char.toNat`).
-/

namespace HotFix

/-- The SOH (start-of-header, 0x01) field delimiter byte of the FIX wire
format. -/
def SOH : Char := Char.ofNat 1

/-! ## Decimal rendering and parsing of naturals -/

/-- Character for a single decimal digit. -/
def digitToChar (d : Nat) : Char := Char.ofNat (48 + d)

/-- Numeric value of a decimal digit character. -/
def charToDigit (c : Char) : Nat := c.toNat - 48

/-- Fuel-driven decimal rendering (most significant digit first). -/
def renderNatAux : Nat → Nat → List Char
  | 0, _ => []
  | fuel + 1, n =>
    if n < 10 then [digitToChar n]
    else renderNatAux fuel (n / 10) ++ [digitToChar (n % 10)]

/-- Decimal rendering of a natural number, no leading zeros. -/
def renderNat (n : Nat) : List Char := renderNatAux (n + 1) n

/-- Value of a digit string (no validity check). -/
def digitsVal (cs : List Char) : Nat :=
  cs.foldl (fun a c => a * 10 + charToDigit c) 0

/-- Parse a non-empty all-digit string into a natural number. -/
def parseNat (cs : List Char) : Option Nat :=
  if cs ≠ [] ∧ cs.all Char.isDigit then some (digitsVal cs) else none

theorem digitToChar_toNat {d : Nat} (h : d < 10) :
    (digitToChar d).toNat = 48 + d := by
  interval_cases d <;> rfl

theorem charToDigit_digitToChar {d : Nat} (h : d < 10) :
    charToDigit (digitToChar d) = d := by
  interval_cases d <;> rfl

theorem isDigit_digitToChar {d : Nat} (h : d < 10) :
    (digitToChar d).isDigit = true := by
  interval_cases d <;> rfl

theorem isDigit_toNat_bounds {c : Char} (h : c.isDigit = true) :
    48 ≤ c.toNat ∧ c.toNat ≤ 57 := by
  simp only [Char.isDigit, Bool.and_eq_true, decide_eq_true_eq] at h
  exact ⟨h.1, h.2⟩

theorem isDigit_ne_SOH {c : Char} (h : c.isDigit = true) : c ≠ SOH := by
  intro hc
  have := isDigit_toNat_bounds h
  subst hc
  simp [SOH] at this

theorem isDigit_ne_eq {c : Char} (h : c.isDigit = true) : c ≠ '=' := by
  intro hc
  subst hc
  simp [Char.isDigit] at h

theorem renderNatAux_congr :
    ∀ n fuel fuel', n < fuel → n < fuel' →
      renderNatAux fuel n = renderNatAux fuel' n := by
  intro n
  induction n using Nat.strong_induction_on with
  | _ n ih =>
    intro fuel fuel' h h'
    obtain ⟨f, rfl⟩ : ∃ f, fuel = f + 1 := ⟨fuel - 1, by omega⟩
    obtain ⟨f', rfl⟩ : ∃ g, fuel' = g + 1 := ⟨fuel' - 1, by omega⟩
    by_cases h10 : n < 10
    · simp [renderNatAux, h10]
    · simp only [renderNatAux, if_neg h10]
      have hdiv : n / 10 < n := Nat.div_lt_self (by omega) (by omega)
      rw [ih (n / 10) hdiv f f' (by omega) (by omega)]

theorem renderNat_def (n : Nat) :
    renderNat n =
      if n < 10 then [digitToChar n]
      else renderNat (n / 10) ++ [digitToChar (n % 10)] := by
  have h : renderNat n =
      if n < 10 then [digitToChar n]
      else renderNatAux n (n / 10) ++ [digitToChar (n % 10)] := rfl
  rw [h]
  by_cases h10 : n < 10
  · simp [h10]
  · rw [if_neg h10, if_neg h10]
    have hdiv : n / 10 < n := Nat.div_lt_self (by omega) (by omega)
    rw [renderNatAux_congr (n / 10) n (n / 10 + 1) hdiv (by omega)]
    rfl

theorem renderNat_ne_nil (n : Nat) : renderNat n ≠ [] := by
  rw [renderNat_def]
  by_cases h10 : n < 10 <;> simp [h10]

theorem renderNat_all_digit :
    ∀ n, ∀ c ∈ renderNat n, c.isDigit = true := by
  intro n
  induction n using Nat.strong_induction_on with
  | _ n ih =>
    rw [renderNat_def]
    by_cases h10 : n < 10
    · simp only [if_pos h10, List.mem_singleton]
      rintro c rfl
      exact isDigit_digitToChar h10
    · simp only [if_neg h10, List.mem_append, List.mem_singleton]
      rintro c (hc | rfl)
      · exact ih (n / 10) (Nat.div_lt_self (by omega) (by omega)) c hc
      · exact isDigit_digitToChar (Nat.mod_lt _ (by omega))

theorem renderNat_foldl :
    ∀ n acc, (renderNat n).foldl (fun a c => a * 10 + charToDigit c) acc =
      acc * 10 ^ (renderNat n).length + n := by
  intro n
  induction n using Nat.strong_induction_on with
  | _ n ih =>
    intro acc
    rw [renderNat_def]
    by_cases h10 : n < 10
    · simp [if_pos h10, charToDigit_digitToChar h10]
    · have hdiv : n / 10 < n := Nat.div_lt_self (by omega) (by omega)
      simp only [if_neg h10, List.foldl_append, List.foldl_cons, List.foldl_nil,
        List.length_append, List.length_cons, List.length_nil]
      rw [ih (n / 10) hdiv acc, charToDigit_digitToChar (Nat.mod_lt _ (by omega))]
      have : acc * 10 ^ ((renderNat (n / 10)).length + (0 + 1)) =
          acc * 10 ^ (renderNat (n / 10)).length * 10 := by ring
      rw [this]
      omega

theorem digitsVal_renderNat (n : Nat) : digitsVal (renderNat n) = n := by
  have := renderNat_foldl n 0
  simpa [digitsVal] using this

theorem parseNat_renderNat (n : Nat) : parseNat (renderNat n) = some n := by
  unfold parseNat
  rw [if_pos]
  · rw [digitsVal_renderNat]
  · refine ⟨renderNat_ne_nil n, ?_⟩
    rw [List.all_eq_true]
    intro c hc
    exact renderNat_all_digit n c hc

/-! ## Checksum rendering -/

/-- Zero-padded 3-digit decimal rendering (FIX CheckSum field format). -/
def render3 (n : Nat) : List Char :=
  [digitToChar (n / 100), digitToChar (n / 10 % 10), digitToChar (n % 10)]

/-- Modelled from the spec: the FIX checksum of a byte sequence — the sum
of all byte values modulo 256 (§4.1, §6). -/
def checksum (cs : List Char) : Nat :=
  (cs.foldl (fun a c => a + c.toNat) 0) % 256

theorem checksum_lt (cs : List Char) : checksum cs < 256 :=
  Nat.mod_lt _ (by omega)

theorem parseNat_render3 {n : Nat} (h : n < 1000) :
    parseNat (render3 n) = some n := by
  have h1 : n / 100 < 10 := by omega
  have h2 : n / 10 % 10 < 10 := Nat.mod_lt _ (by omega)
  have h3 : n % 10 < 10 := Nat.mod_lt _ (by omega)
  unfold parseNat
  rw [if_pos]
  · simp only [Option.some.injEq, digitsVal, render3, List.foldl_cons, List.foldl_nil]
    rw [charToDigit_digitToChar h1, charToDigit_digitToChar h2,
      charToDigit_digitToChar h3]
    omega
  · refine ⟨by simp [render3], ?_⟩
    simp [render3, isDigit_digitToChar h1, isDigit_digitToChar h2,
      isDigit_digitToChar h3]

/-! ## Raw fields: the tag=value wire layer

Modelled from the spec (§3 Field, §6 wire format): a field is a
(tag, value) pair, encoded as the decimal tag, `=`, the value bytes and a
trailing SOH delimiter. -/

/-- A raw wire field: tag and value bytes. -/
abbrev RawField := Nat × List Char

/-- Modelled from the spec: wire encoding `tag=value<SOH>` of one field. -/
def encodeField (f : RawField) : List Char :=
  renderNat f.1 ++ '=' :: (f.2 ++ [SOH])

/-- Wire encoding of a list of fields. -/
def encodeFields (fs : List RawField) : List Char :=
  (fs.map encodeField).flatten

/-- Result of scanning one `tag=value<SOH>` field off the front of a
buffer: complete, need more bytes, or malformed. -/
inductive Scan where
  | done : Nat → List Char → List Char → Scan
  | more : Scan
  | bad : Scan
deriving DecidableEq, Repr

/-- Modelled from the spec: scan one `tag=value<SOH>` field from the
front of a byte buffer.  Returns `more` when the buffer ends before the
field is complete (incremental decoding), `bad` on malformed bytes. -/
def scanField (cs : List Char) : Scan :=
  let ds := cs.takeWhile Char.isDigit
  match cs.dropWhile Char.isDigit with
  | [] => .more
  | c :: r2 =>
    if c = '=' then
      match parseNat ds with
      | none => .bad
      | some t =>
        let v := r2.takeWhile (fun x => x ≠ SOH)
        match r2.dropWhile (fun x => x ≠ SOH) with
        | [] => .more
        | _ :: r4 => .done t v r4
    else .bad

/-! helper lemmas about takeWhile/dropWhile over appends -/

theorem takeWhile_append_all {α : Type} {p : α → Bool} :
    ∀ (xs ys : List α), (∀ x ∈ xs, p x = true) →
      (xs ++ ys).takeWhile p = xs ++ ys.takeWhile p := by
  intro xs ys h
  induction xs with
  | nil => simp
  | cons a xs ih =>
    have ha : p a = true := h a (by simp)
    simp only [List.cons_append, List.takeWhile_cons, ha, if_true]
    rw [ih (fun x hx => h x (by simp [hx]))]

theorem dropWhile_append_all {α : Type} {p : α → Bool} :
    ∀ (xs ys : List α), (∀ x ∈ xs, p x = true) →
      (xs ++ ys).dropWhile p = ys.dropWhile p := by
  intro xs ys h
  induction xs with
  | nil => simp
  | cons a xs ih =>
    have ha : p a = true := h a (by simp)
    simp only [List.cons_append, List.dropWhile_cons, ha, if_true]
    exact ih (fun x hx => h x (by simp [hx]))

theorem takeWhile_all {α : Type} {p : α → Bool} (xs : List α)
    (h : ∀ x ∈ xs, p x = true) : xs.takeWhile p = xs := by
  have := takeWhile_append_all xs [] h
  simpa using this

theorem dropWhile_all {α : Type} {p : α → Bool} (xs : List α)
    (h : ∀ x ∈ xs, p x = true) : xs.dropWhile p = [] := by
  have := dropWhile_append_all xs [] h
  simpa using this

/-- Scanning a complete well-formed field followed by anything yields the
field and the remainder. -/
theorem scanField_complete {ds v : List Char} {t : Nat} (rest : List Char)
    (hds : parseNat ds = some t)
    (hv : ∀ x ∈ v, x ≠ SOH) :
    scanField (ds ++ '=' :: (v ++ SOH :: rest)) = .done t v rest := by
  have hdsd : ∀ x ∈ ds, x.isDigit = true := by
    have h' := hds
    simp [parseNat] at h'
    exact h'.1.2
  unfold scanField
  rw [takeWhile_append_all ds _ hdsd, dropWhile_append_all ds _ hdsd]
  have heq : ('=' :: (v ++ SOH :: rest)).takeWhile Char.isDigit = [] := by
    simp [List.takeWhile_cons, Char.isDigit]
  have heq' : ('=' :: (v ++ SOH :: rest)).dropWhile Char.isDigit =
      '=' :: (v ++ SOH :: rest) := by
    simp [List.dropWhile_cons, Char.isDigit]
  rw [heq, heq']
  simp only [List.append_nil, if_pos rfl, hds]
  have hvb : ∀ x ∈ v, (fun x => decide (x ≠ SOH)) x = true := by
    intro x hx
    simpa using hv x hx
  rw [takeWhile_append_all v _ hvb, dropWhile_append_all v _ hvb]
  have hS : (fun x => decide (x ≠ SOH)) SOH = false := by simp
  simp [List.takeWhile_cons, List.dropWhile_cons, hS]

/-- Scanning the encoding of a field followed by anything. -/
theorem scanField_encodeField (f : RawField) (rest : List Char)
    (hv : ∀ x ∈ f.2, x ≠ SOH) :
    scanField (encodeField f ++ rest) = .done f.1 f.2 rest := by
  have : encodeField f ++ rest = renderNat f.1 ++ '=' :: (f.2 ++ SOH :: rest) := by
    simp [encodeField]
  rw [this]
  exact scanField_complete rest (parseNat_renderNat f.1) hv

/-- Decompose a prefix of an append. -/
theorem prefix_append_cases {α : Type} (p xs ys : List α) (h : p <+: xs ++ ys) :
    p <+: xs ∨ ∃ q, p = xs ++ q ∧ q <+: ys := by
  induction xs generalizing p with
  | nil => exact Or.inr ⟨p, rfl, h⟩
  | cons a xs ih =>
    cases p with
    | nil => exact Or.inl (List.nil_prefix)
    | cons b p' =>
      rw [List.cons_append] at h
      rcases List.cons_prefix_cons.mp h with ⟨rfl, h'⟩
      rcases ih p' h' with h1 | ⟨q, rfl, hq⟩
      · exact Or.inl (List.cons_prefix_cons.mpr ⟨rfl, h1⟩)
      · exact Or.inr ⟨q, by simp, hq⟩

/-- Scanning any strict prefix of a well-formed field reports `more`
(incremental decoding never errors on a truncated valid field). -/
theorem scanField_truncated {ds v p : List Char} {t : Nat}
    (hds : parseNat ds = some t) (hv : ∀ x ∈ v, x ≠ SOH)
    (hp : p <+: ds ++ '=' :: (v ++ [SOH]))
    (hne : p ≠ ds ++ '=' :: (v ++ [SOH])) :
    scanField p = .more := by
  have hdsd : ∀ x ∈ ds, x.isDigit = true := by
    have h' := hds
    simp [parseNat] at h'
    exact h'.1.2
  rcases prefix_append_cases p ds ('=' :: (v ++ [SOH])) hp with h1 | ⟨q, rfl, hq⟩
  · -- p is a prefix of the digits: all digits, no delimiter yet
    have hpd : ∀ x ∈ p, x.isDigit = true := fun x hx => hdsd x (h1.subset hx)
    unfold scanField
    rw [dropWhile_all p hpd]
  · cases q with
    | nil =>
      -- p = ds exactly: still all digits
      have hpd : ∀ x ∈ ds, x.isDigit = true := hdsd
      unfold scanField
      rw [List.append_nil, dropWhile_all ds hpd]
    | cons b q' =>
      rcases List.cons_prefix_cons.mp hq with ⟨rfl, hq'⟩
      have hq'ne : q' ≠ v ++ [SOH] := by
        intro hcontra
        exact hne (by rw [hcontra])
      have hq'len : q'.length ≤ v.length := by
        have h1 := hq'.length_le
        simp only [List.length_append, List.length_cons, List.length_nil] at h1
        rcases Nat.lt_or_ge q'.length (v.length + 1) with h2 | h2
        · omega
        · exfalso
          refine hq'ne (hq'.eq_of_length ?_)
          simp only [List.length_append, List.length_cons, List.length_nil]
          omega
      have hq'v : q' <+: v :=
        List.prefix_of_prefix_length_le hq' (List.prefix_append v [SOH]) hq'len
      have hq'soh : ∀ x ∈ q', x ≠ SOH := fun x hx => hv x (hq'v.subset hx)
      unfold scanField
      rw [takeWhile_append_all ds _ hdsd, dropWhile_append_all ds _ hdsd]
      have heq : ('=' :: q').takeWhile Char.isDigit = [] := by
        simp [List.takeWhile_cons, Char.isDigit]
      have heq' : ('=' :: q').dropWhile Char.isDigit = '=' :: q' := by
        simp [List.dropWhile_cons, Char.isDigit]
      rw [heq, heq']
      simp only [List.append_nil, if_pos rfl, hds]
      have hvb : ∀ x ∈ q', (fun x => decide (x ≠ SOH)) x = true := by
        intro x hx
        simpa using hq'soh x hx
      rw [dropWhile_all q' hvb]
      simp

/-! ## Parsing a buffer into raw fields -/

/-- Modelled from the spec: split a byte buffer into its `tag=value`
fields (the buffer must consist of whole fields).  Fuel-driven so that it
is structurally recursive; `parseFields` supplies the buffer length as
fuel, which suffices since every field consumes at least one byte. -/
def parseFieldsAux : Nat → List Char → Option (List RawField)
  | _, [] => some []
  | 0, _ :: _ => none
  | fuel + 1, c :: cs =>
    match scanField (c :: cs) with
    | .done t v rest => (parseFieldsAux fuel rest).map (fun fs => (t, v) :: fs)
    | _ => none

/-- Split a whole buffer into raw fields. -/
def parseFields (cs : List Char) : Option (List RawField) :=
  parseFieldsAux cs.length cs

theorem encodeField_ne_nil (f : RawField) : encodeField f ≠ [] := by
  simp only [encodeField]
  intro h
  exact renderNat_ne_nil f.1 (List.append_eq_nil.mp h).1

theorem encodeField_length_pos (f : RawField) : 0 < (encodeField f).length :=
  List.length_pos.mpr (encodeField_ne_nil f)

/-- A value is SOH-free. -/
def sohFree (v : List Char) : Bool := v.all (fun x => x ≠ SOH)

theorem sohFree_iff {v : List Char} :
    sohFree v = true ↔ ∀ x ∈ v, x ≠ SOH := by
  simp [sohFree]

/-- Parsing the encoding of a field list recovers the list. -/
theorem parseFieldsAux_encodeFields :
    ∀ (fs : List RawField) (fuel : Nat),
      (∀ f ∈ fs, sohFree f.2 = true) →
      (encodeFields fs).length ≤ fuel →
      parseFieldsAux fuel (encodeFields fs) = some fs := by
  intro fs
  induction fs with
  | nil =>
    intro fuel _ _
    cases fuel <;> rfl
  | cons f fs ih =>
    intro fuel hsoh hlen
    have henc : encodeFields (f :: fs) = encodeField f ++ encodeFields fs := by
      simp [encodeFields]
    have hlenf := encodeField_length_pos f
    obtain ⟨k, rfl⟩ : ∃ k, fuel = k + 1 := by
      refine ⟨fuel - 1, ?_⟩
      rw [henc] at hlen
      simp only [List.length_append] at hlen
      omega
    obtain ⟨c, cs', hc⟩ : ∃ c cs', encodeField f ++ encodeFields fs = c :: cs' := by
      cases h : encodeField f with
      | nil => exact absurd h (encodeField_ne_nil f)
      | cons a as => exact ⟨a, as ++ encodeFields fs, by simp [h]⟩
    rw [henc, hc]
    have hscan : scanField (c :: cs') = .done f.1 f.2 (encodeFields fs) := by
      rw [← hc]
      exact scanField_encodeField f _ (sohFree_iff.mp (hsoh f (by simp)))
    simp only [parseFieldsAux, hscan]
    rw [ih k (fun g hg => hsoh g (by simp [hg])) ?_]
    · rfl
    · rw [henc, hc] at hlen
      have : (c :: cs').length = (encodeField f).length + (encodeFields fs).length := by
        rw [← hc]
        simp
      simp only [List.length_cons] at hlen this
      omega

/-! ## Repeating groups and the message model

Modelled from the spec (§3): a Message is an ordered sequence of
top-level Fields and RepeatingGroups, tagged with a MsgType.  A
RepeatingGroup is anchored by a count tag, a delimiter tag (the tag that
starts each entry) and the group's field set, which the codec uses to
detect the end of the final entry (§4.1). -/

/-- A repeating-group schema entry of the codec's dictionary: count tag,
delimiter tag and the group's member field set. -/
structure GroupSpec where
  countTag : Nat
  delimTag : Nat
  memberTags : List Nat
deriving DecidableEq, Repr

/-- An element of a message body: a plain field or a repeating group
(count tag plus entries, each entry a list of fields). -/
inductive MsgItem where
  | field : Nat → List Char → MsgItem
  | group : Nat → List (List RawField) → MsgItem
deriving DecidableEq, Repr

/-- A FIX message: MsgType plus ordered body items. -/
structure Message where
  msgType : List Char
  items : List MsgItem
deriving DecidableEq, Repr

/-- Look up the group schema anchored at a count tag. -/
def findSpec (specs : List GroupSpec) (t : Nat) : Option GroupSpec :=
  specs.find? (fun sp => sp.countTag == t)

/-- Modelled from the spec: flatten one body item to raw wire fields; a
group becomes its count-tag field (value = number of entries) followed by
the entries' fields in order (§6). -/
def itemRaw : MsgItem → List RawField
  | .field t v => [(t, v)]
  | .group ct entries => (ct, renderNat entries.length) :: entries.flatten

/-- Flatten a body item list to raw wire fields. -/
def itemsRaw (items : List MsgItem) : List RawField :=
  (items.map itemRaw).flatten

/-- Does a raw field continue the current group entry (member tag other
than the delimiter)? -/
def entryCont (sp : GroupSpec) (f : RawField) : Bool :=
  f.1 != sp.delimTag && sp.memberTags.contains f.1

/-- Modelled from the spec: read exactly `n` group entries; each entry
begins at the delimiter tag and continues until the next occurrence of
the delimiter tag or a tag outside the group's field set (§4.1).  Fails
(`none`) when an expected delimiter is missing, i.e. the declared count
exceeds the entries present. -/
def readEntries (sp : GroupSpec) : Nat → List RawField →
    Option (List (List RawField) × List RawField)
  | 0, rs => some ([], rs)
  | _ + 1, [] => none
  | n + 1, (t, v) :: rs =>
    if t = sp.delimTag then
      let body := rs.takeWhile (entryCont sp)
      let rest := rs.dropWhile (entryCont sp)
      (readEntries sp n rest).map (fun p => (((t, v) :: body) :: p.1, p.2))
    else none

/-- Modelled from the spec: structure a raw field list into body items,
reading repeating groups at their count tags (§4.1).  Fuel-driven
(buffer length suffices: each step consumes at least the head field). -/
def parseItemsAux (specs : List GroupSpec) : Nat → List RawField →
    Option (List MsgItem)
  | _, [] => some []
  | 0, _ :: _ => none
  | fuel + 1, (t, v) :: rs =>
    match findSpec specs t with
    | none => (parseItemsAux specs fuel rs).map (fun is => .field t v :: is)
    | some sp =>
      match parseNat v with
      | none => none
      | some n =>
        match readEntries sp n rs with
        | none => none
        | some (es, rest) =>
          (parseItemsAux specs fuel rest).map (fun is => .group t es :: is)

/-- Structure a raw field list into body items. -/
def parseItems (specs : List GroupSpec) (rs : List RawField) :
    Option (List MsgItem) :=
  parseItemsAux specs rs.length rs

/-! ### Validity of messages (well-formed fields and repeating groups)

Modelled from the spec (§3 invariants): tags are positive, values do not
contain the delimiter byte, a group's count-tag value equals its number
of entries, every entry starts with the delimiter tag, and entry fields
stay within the group's field set.  A top-level field must not use a
count tag, and the item following a group must not begin with one of the
group's member tags (otherwise the wire form would be ambiguous). -/

/-- A valid group entry: nonempty, starts with the delimiter tag, and the
remaining fields are member tags other than the delimiter, SOH-free. -/
def entryValid (sp : GroupSpec) : List RawField → Bool
  | [] => false
  | (t, v) :: rest =>
    t == sp.delimTag && sohFree v &&
      rest.all (fun f => entryCont sp f && sohFree f.2)

/-- The leading wire tag of an item. -/
def leadTag : MsgItem → Nat
  | .field t _ => t
  | .group ct _ => ct

/-- A valid body item, relative to the codec's group dictionary. -/
def itemValid (specs : List GroupSpec) : MsgItem → Bool
  | .field t v => 0 < t && (findSpec specs t).isNone && sohFree v
  | .group ct entries =>
    match findSpec specs ct with
    | some sp => 0 < ct && entries.all (entryValid sp)
    | none => false

/-- After a group, the next item must not begin with a member tag of that
group (so the codec can detect the group's end). -/
def boundaryOk (specs : List GroupSpec) : MsgItem → List MsgItem → Bool
  | .field _ _, _ => true
  | .group _ _, [] => true
  | .group ct _, next :: _ =>
    match findSpec specs ct with
    | some sp => !(entryCont sp (leadTag next, []))
    | none => false

/-- A valid body item list. -/
def itemsValid (specs : List GroupSpec) : List MsgItem → Bool
  | [] => true
  | i :: rest => itemValid specs i && boundaryOk specs i rest && itemsValid specs rest

/-- A valid message relative to the codec dictionary: SOH-free MsgType
and valid body items (spec §3). -/
def msgValid (specs : List GroupSpec) (m : Message) : Bool :=
  sohFree m.msgType && itemsValid specs m.items

/-! ### Round trip of the item layer -/

/-- The continuation test depends only on the tag. -/
theorem entryCont_fst (sp : GroupSpec) (f : RawField) :
    entryCont sp f = (f.1 != sp.delimTag && sp.memberTags.contains f.1) := rfl

/-- The head of a raw field list does not continue a group entry. -/
def headStop (sp : GroupSpec) (l : List RawField) : Prop :=
  ∀ f, l.head? = some f → entryCont sp f = false

theorem headStop_nil (sp : GroupSpec) : headStop sp [] := by
  intro f h
  simp at h

theorem takeWhile_headStop {sp : GroupSpec} {l : List RawField}
    (h : headStop sp l) : l.takeWhile (entryCont sp) = [] := by
  cases l with
  | nil => rfl
  | cons f fs =>
    have := h f rfl
    simp [List.takeWhile_cons, this]

theorem dropWhile_headStop {sp : GroupSpec} {l : List RawField}
    (h : headStop sp l) : l.dropWhile (entryCont sp) = l := by
  cases l with
  | nil => rfl
  | cons f fs =>
    have := h f rfl
    simp [List.dropWhile_cons, this]

/-- A valid entry starts with the delimiter tag. -/
theorem entryValid_head {sp : GroupSpec} {e : List RawField}
    (h : entryValid sp e = true) :
    ∃ v rest, e = (sp.delimTag, v) :: rest ∧ sohFree v = true ∧
      ∀ f ∈ rest, entryCont sp f = true ∧ sohFree f.2 = true := by
  cases e with
  | nil => simp [entryValid] at h
  | cons f rest =>
    obtain ⟨t, v⟩ := f
    simp only [entryValid, Bool.and_eq_true, beq_iff_eq, List.all_eq_true] at h
    refine ⟨v, rest, ?_, h.1.2, ?_⟩
    · rw [h.1.1]
    · intro f hf
      have := h.2 f hf
      simpa [Bool.and_eq_true] using this

/-- A list of valid entries followed by a stopped tail has a stopped
head after flattening (the first flattened field is a delimiter field,
which never continues an entry). -/
theorem headStop_flatten {sp : GroupSpec} :
    ∀ (entries : List (List RawField)) (rest : List RawField),
      (∀ e ∈ entries, entryValid sp e = true) → headStop sp rest →
      headStop sp (entries.flatten ++ rest) := by
  intro entries rest hval hrest
  cases entries with
  | nil => simpa using hrest
  | cons e es =>
    obtain ⟨v, r, he, _, _⟩ := entryValid_head (hval e (by simp))
    intro f hf
    rw [he] at hf
    simp only [List.flatten_cons, List.cons_append, List.append_assoc,
      List.head?_cons, Option.some.injEq] at hf
    rw [← hf]
    simp [entryCont]

/-- Reading back the flattened encoding of valid entries recovers them. -/
theorem readEntries_flatten (sp : GroupSpec) :
    ∀ (entries : List (List RawField)) (rest : List RawField),
      (∀ e ∈ entries, entryValid sp e = true) →
      headStop sp rest →
      readEntries sp entries.length (entries.flatten ++ rest) =
        some (entries, rest) := by
  intro entries
  induction entries with
  | nil =>
    intro rest _ _
    rfl
  | cons e es ih =>
    intro rest hval hrest
    obtain ⟨v, r, he, _hv, hr⟩ := entryValid_head (hval e (by simp))
    have hflat : (e :: es).flatten ++ rest =
        (sp.delimTag, v) :: (r ++ (es.flatten ++ rest)) := by
      rw [he]
      simp
    rw [hflat]
    simp only [List.length_cons, readEntries, if_pos rfl]
    have hcont : ∀ f ∈ r, entryCont sp f = true := fun f hf => (hr f hf).1
    have hstop : headStop sp (es.flatten ++ rest) :=
      headStop_flatten es rest (fun e' he' => hval e' (by simp [he'])) hrest
    have htake : (r ++ (es.flatten ++ rest)).takeWhile (entryCont sp) = r := by
      rw [takeWhile_append_all r _ hcont, takeWhile_headStop hstop, List.append_nil]
    have hdrop : (r ++ (es.flatten ++ rest)).dropWhile (entryCont sp) =
        es.flatten ++ rest := by
      rw [dropWhile_append_all r _ hcont, dropWhile_headStop hstop]
    rw [htake, hdrop,
      ih rest (fun e' he' => hval e' (by simp [he'])) hrest]
    simp [he]

/-- The first raw field of a flattened item list carries the lead tag of
the first item. -/
theorem itemsRaw_head (i : MsgItem) (rest : List MsgItem) :
    ∃ v tl, itemsRaw (i :: rest) = (leadTag i, v) :: tl := by
  cases i with
  | field t v => exact ⟨v, itemsRaw rest, by simp [itemsRaw, itemRaw, leadTag]⟩
  | group ct es =>
    exact ⟨renderNat es.length, es.flatten ++ itemsRaw rest,
      by simp [itemsRaw, itemRaw, leadTag]⟩

/-- Valid item sequencing after a group gives a stopped head. -/
theorem headStop_itemsRaw {sp : GroupSpec} {items : List MsgItem}
    (h : ∀ i r, items = i :: r → entryCont sp (leadTag i, []) = false) :
    headStop sp (itemsRaw items) := by
  cases items with
  | nil => exact headStop_nil sp
  | cons i rest =>
    obtain ⟨v, tl, hv⟩ := itemsRaw_head i rest
    intro f hf
    rw [hv] at hf
    simp only [List.head?_cons, Option.some.injEq] at hf
    rw [← hf, entryCont_fst]
    have := h i rest rfl
    rw [entryCont_fst] at this
    exact this

/-- Parsing the flattened encoding of valid items recovers the items. -/
theorem parseItemsAux_itemsRaw (specs : List GroupSpec) :
    ∀ (items : List MsgItem) (fuel : Nat),
      itemsValid specs items = true →
      (itemsRaw items).length ≤ fuel →
      parseItemsAux specs fuel (itemsRaw items) = some items := by
  intro items
  induction items with
  | nil =>
    intro fuel _ _
    cases fuel <;> rfl
  | cons i rest ih =>
    intro fuel hval hlen
    have hval' : itemValid specs i = true ∧ boundaryOk specs i rest = true ∧
        itemsValid specs rest = true := by
      have := hval
      simp only [itemsValid, Bool.and_eq_true] at this
      exact ⟨this.1.1, this.1.2, this.2⟩
    cases i with
    | field t v =>
      have hfv : (findSpec specs t).isNone = true ∧ sohFree v = true := by
        have := hval'.1
        simp only [itemValid, Bool.and_eq_true] at this
        exact ⟨this.1.2, this.2⟩
      have hraw : itemsRaw (.field t v :: rest) = (t, v) :: itemsRaw rest := by
        simp [itemsRaw, itemRaw]
      rw [hraw] at hlen ⊢
      obtain ⟨k, rfl⟩ : ∃ k, fuel = k + 1 := by
        refine ⟨fuel - 1, ?_⟩
        simp only [List.length_cons] at hlen
        omega
      have hfind : findSpec specs t = none := Option.isNone_iff_eq_none.mp hfv.1
      simp only [parseItemsAux, hfind]
      rw [ih k hval'.2.2 (by simp only [List.length_cons] at hlen; omega)]
      rfl
    | group ct es =>
      obtain ⟨sp, hfind, hes⟩ : ∃ sp, findSpec specs ct = some sp ∧
          ∀ e ∈ es, entryValid sp e = true := by
        have := hval'.1
        simp only [itemValid] at this
        cases hf : findSpec specs ct with
        | none => rw [hf] at this; exact absurd this (by simp)
        | some sp =>
          rw [hf] at this
          simp only [Bool.and_eq_true, List.all_eq_true] at this
          exact ⟨sp, rfl, this.2⟩
      have hraw : itemsRaw (.group ct es :: rest) =
          (ct, renderNat es.length) :: (es.flatten ++ itemsRaw rest) := by
        simp [itemsRaw, itemRaw]
      rw [hraw] at hlen ⊢
      obtain ⟨k, rfl⟩ : ∃ k, fuel = k + 1 := by
        refine ⟨fuel - 1, ?_⟩
        simp only [List.length_cons] at hlen
        omega
      have hstop : headStop sp (itemsRaw rest) := by
        refine headStop_itemsRaw ?_
        intro j r hj
        have := hval'.2.1
        rw [hj] at this
        simp only [boundaryOk, hfind] at this
        simpa using this
      have hread : readEntries sp es.length (es.flatten ++ itemsRaw rest) =
          some (es, itemsRaw rest) := readEntries_flatten sp es _ hes hstop
      simp only [parseItemsAux, hfind, parseNat_renderNat, hread]
      rw [ih k hval'.2.2 ?_]
      · rfl
      · simp only [List.length_cons, List.length_append] at hlen ⊢
        omega

/-- Round trip of the body-item layer. -/
theorem parseItems_itemsRaw (specs : List GroupSpec) (items : List MsgItem)
    (hval : itemsValid specs items = true) :
    parseItems specs (itemsRaw items) = some items :=
  parseItemsAux_itemsRaw specs items _ hval le_rfl

/-! ## The message codec

Modelled from the spec (§4.1 Codec contract, §6 wire format):
`encode` produces `8=<BeginString>|9=<BodyLength>|35=<MsgType>|...|10=<CheckSum>|`
where BodyLength counts the bytes between the BodyLength field and the
CheckSum field (each field including its trailing SOH) and CheckSum is
the 3-digit zero-padded byte sum modulo 256 of everything before the
`10=` field.  `decode` works incrementally: on a buffer shorter than the
declared BodyLength requires it consumes nothing and reports
`incomplete`; malformed framing (bad checksum, inconsistent BodyLength,
missing delimiter, group count mismatch) is a FramingError (`err`). -/

/-- The message body: the MsgType field followed by the flattened items. -/
def encodeBody (m : Message) : List Char :=
  encodeField (35, m.msgType) ++ encodeFields (itemsRaw m.items)

/-- Everything before the CheckSum field. -/
def encodePre (bs : List Char) (m : Message) : List Char :=
  encodeField (8, bs) ++ encodeField (9, renderNat (encodeBody m).length) ++
    encodeBody m

/-- Modelled from the spec: deterministic message encoding, recomputing
and appending BodyLength and CheckSum (§4.1). -/
def encodeMsg (bs : List Char) (m : Message) : List Char :=
  encodePre bs m ++ encodeField (10, render3 (checksum (encodePre bs m)))

/-- Result of an incremental decode call: need more bytes (zero bytes
consumed), one complete message plus the number of bytes consumed, or a
FramingError. -/
inductive DecodeResult where
  | incomplete : DecodeResult
  | msg : Message → Nat → DecodeResult
  | err : DecodeResult
deriving DecidableEq, Repr

/-- Interpret parsed body fields as a message: the first field must be
MsgType (tag 35), the remainder is structured into items. -/
def decodeBody35 (specs : List GroupSpec) (raws : List RawField) :
    Option Message :=
  match raws with
  | (35, mt) :: rfs => (parseItems specs rfs).map (fun items => ⟨mt, items⟩)
  | _ => none

/-- Check the CheckSum field (`trailer`, the 7 bytes after the body)
against the byte sum of `pre` and parse the body (§4.1 framing checks). -/
def decodePayload (specs : List GroupSpec) (pre body trailer : List Char)
    (consumed : Nat) : DecodeResult :=
  match trailer with
  | [a, b, c, d1, d2, d3, c7] =>
    if a = '1' ∧ b = '0' ∧ c = '=' ∧ c7 = SOH then
      if parseNat [d1, d2, d3] = some (checksum pre) then
        (parseFields body).elim .err fun raws =>
          (decodeBody35 specs raws).elim .err fun m => .msg m consumed
      else .err
    else .err
  | _ => .err

/-- Modelled from the spec: incremental decode of one message from the
front of a byte buffer (§4.1).  Parses the `8=` and `9=` header fields;
if the buffer holds fewer bytes than BodyLength plus the CheckSum field
require, reports `incomplete` without consuming anything; otherwise
checks the CheckSum field's position and value, splits the body into
fields (first must be MsgType) and structures the repeating groups.
Checksum mismatch, misplaced CheckSum field (BodyLength inconsistent
with the field span), missing delimiters and group-count mismatches all
yield a FramingError. -/
def decode (specs : List GroupSpec) (buf : List Char) : DecodeResult :=
  match scanField buf with
  | .more => .incomplete
  | .bad => .err
  | .done t8 _ r1 =>
    if t8 = 8 then
      match scanField r1 with
      | .more => .incomplete
      | .bad => .err
      | .done t9 v9 r2 =>
        if t9 = 9 then
          match parseNat v9 with
          | none => .err
          | some bodyLen =>
            if r2.length < bodyLen + 7 then .incomplete
            else
              decodePayload specs
                (buf.take (buf.length - r2.length + bodyLen))
                (r2.take bodyLen) ((r2.drop bodyLen).take 7)
                (buf.length - r2.length + bodyLen + 7)
        else .err
    else .err

/-- Every raw field of a valid item list has an SOH-free value. -/
theorem itemsRaw_sohFree {specs : List GroupSpec} :
    ∀ {items : List MsgItem}, itemsValid specs items = true →
      ∀ f ∈ itemsRaw items, sohFree f.2 = true := by
  intro items
  induction items with
  | nil => intro _ f hf; simp [itemsRaw] at hf
  | cons i rest ih =>
    intro hval f hf
    have hval' : itemValid specs i = true ∧ itemsValid specs rest = true := by
      simp only [itemsValid, Bool.and_eq_true] at hval
      exact ⟨hval.1.1, hval.2⟩
    have hsplit : itemsRaw (i :: rest) = itemRaw i ++ itemsRaw rest := by
      simp [itemsRaw]
    rw [hsplit, List.mem_append] at hf
    rcases hf with hf | hf
    · cases i with
      | field t v =>
        simp only [itemRaw, List.mem_singleton] at hf
        subst hf
        have := hval'.1
        simp only [itemValid, Bool.and_eq_true] at this
        exact this.2
      | group ct es =>
        simp only [itemRaw, List.mem_cons] at hf
        rcases hf with rfl | hf
        · rw [sohFree_iff]
          intro x hx
          exact isDigit_ne_SOH (renderNat_all_digit _ x hx)
        · obtain ⟨sp, hfind, hes⟩ : ∃ sp, findSpec specs ct = some sp ∧
              ∀ e ∈ es, entryValid sp e = true := by
            have := hval'.1
            simp only [itemValid] at this
            cases hfd : findSpec specs ct with
            | none => rw [hfd] at this; exact absurd this (by simp)
            | some sp =>
              rw [hfd] at this
              simp only [Bool.and_eq_true, List.all_eq_true] at this
              exact ⟨sp, rfl, this.2⟩
          rw [List.mem_flatten] at hf
          obtain ⟨e, he, hfe⟩ := hf
          obtain ⟨v, r, heq, hv, hr⟩ := entryValid_head (hes e he)
          rw [heq] at hfe
          rcases List.mem_cons.mp hfe with rfl | hfe
          · exact hv
          · exact (hr f hfe).2
    · exact ih hval'.2 f hf

/-- Decoding a complete well-framed buffer (header, body of declared
length, 7-byte trailer, anything after) reaches the payload stage with
the right slices. -/
theorem decode_shape (specs : List GroupSpec) (bs body t7 extra : List Char)
    (ht7 : t7.length = 7) (hbs : sohFree bs = true) :
    decode specs
        ((encodeField (8, bs) ++ encodeField (9, renderNat body.length) ++ body)
          ++ (t7 ++ extra)) =
      decodePayload specs
        (encodeField (8, bs) ++ encodeField (9, renderNat body.length) ++ body)
        body t7
        ((encodeField (8, bs) ++ encodeField (9, renderNat body.length) ++ body).length
          + 7) := by
  set f8 := encodeField (8, bs) with hf8
  set f9 := encodeField (9, renderNat body.length) with hf9
  have hbuf : (f8 ++ f9 ++ body) ++ (t7 ++ extra) =
      f8 ++ (f9 ++ (body ++ (t7 ++ extra))) := by
    simp [List.append_assoc]
  rw [hbuf]
  have hscan1 : scanField (f8 ++ (f9 ++ (body ++ (t7 ++ extra)))) =
      .done 8 bs (f9 ++ (body ++ (t7 ++ extra))) :=
    scanField_encodeField (8, bs) _ (sohFree_iff.mp hbs)
  have hv9 : ∀ x ∈ renderNat body.length, x ≠ SOH := fun x hx =>
    isDigit_ne_SOH (renderNat_all_digit _ x hx)
  have hscan2 : scanField (f9 ++ (body ++ (t7 ++ extra))) =
      .done 9 (renderNat body.length) (body ++ (t7 ++ extra)) :=
    scanField_encodeField (9, renderNat body.length) _ hv9
  have hr2len : (body ++ (t7 ++ extra)).length =
      body.length + 7 + extra.length := by
    simp [ht7]
    omega
  have hnotlt : ¬ (body ++ (t7 ++ extra)).length < body.length + 7 := by
    omega
  simp only [decode, hscan1, hscan2, if_pos rfl, parseNat_renderNat,
    if_neg hnotlt]
  have harith : (f8 ++ (f9 ++ (body ++ (t7 ++ extra)))).length -
      (body ++ (t7 ++ extra)).length + body.length =
      (f8 ++ f9 ++ body).length := by
    simp
    omega
  rw [harith]
  have htakepre : (f8 ++ (f9 ++ (body ++ (t7 ++ extra)))).take
      (f8 ++ f9 ++ body).length = f8 ++ f9 ++ body := by
    rw [← hbuf]
    exact List.take_left _ _
  have htakebody : (body ++ (t7 ++ extra)).take body.length = body :=
    List.take_left _ _
  have hdropbody : (body ++ (t7 ++ extra)).drop body.length = t7 ++ extra :=
    List.drop_left _ _
  have htaket7 : (t7 ++ extra).take 7 = t7 := by
    rw [← ht7]
    exact List.take_left _ _
  rw [htakepre, htakebody, hdropbody, htaket7]
  simp

theorem renderNat_ten : renderNat 10 = ['1', '0'] := by decide

/-- The encoded CheckSum field is exactly 7 bytes `10=dddSOH`. -/
theorem trailer_shape (ck : Nat) :
    encodeField (10, render3 ck) =
      ['1', '0', '=', digitToChar (ck / 100), digitToChar (ck / 10 % 10),
        digitToChar (ck % 10), SOH] := by
  simp [encodeField, renderNat_ten, render3]

/-- Parsing the encoded body recovers the MsgType field and raw items. -/
theorem parseFields_encodeBody {specs : List GroupSpec} {m : Message}
    (hval : msgValid specs m = true) :
    parseFields (encodeBody m) = some ((35, m.msgType) :: itemsRaw m.items) := by
  have hmv : sohFree m.msgType = true ∧ itemsValid specs m.items = true := by
    simp only [msgValid, Bool.and_eq_true] at hval
    exact hval
  have hbody : encodeBody m = encodeFields ((35, m.msgType) :: itemsRaw m.items) := by
    simp [encodeBody, encodeFields]
  rw [hbody]
  refine parseFieldsAux_encodeFields _ _ ?_ le_rfl
  intro f hf
  rcases List.mem_cons.mp hf with rfl | hf
  · exact hmv.1
  · exact itemsRaw_sohFree hmv.2 f hf

/-- Codec round trip: decoding an encoded valid message yields the
message back, consuming exactly its wire length. -/
theorem decode_encodeMsg (specs : List GroupSpec) (bs : List Char)
    (m : Message) (extra : List Char)
    (hval : msgValid specs m = true) (hbs : sohFree bs = true) :
    decode specs (encodeMsg bs m ++ extra) =
      .msg m (encodeMsg bs m).length := by
  have hck : checksum (encodePre bs m) < 1000 :=
    lt_trans (checksum_lt _) (by norm_num)
  have htrailer := trailer_shape (checksum (encodePre bs m))
  have hmsg : encodeMsg bs m ++ extra =
      (encodeField (8, bs) ++
        encodeField (9, renderNat (encodeBody m).length) ++ encodeBody m) ++
      (['1', '0', '=', digitToChar (checksum (encodePre bs m) / 100),
        digitToChar (checksum (encodePre bs m) / 10 % 10),
        digitToChar (checksum (encodePre bs m) % 10), SOH] ++ extra) := by
    rw [encodeMsg, htrailer, encodePre]
    simp [List.append_assoc]
  rw [hmsg, decode_shape specs bs (encodeBody m) _ extra (by simp) hbs]
  have hpre : encodeField (8, bs) ++
      encodeField (9, renderNat (encodeBody m).length) ++ encodeBody m =
      encodePre bs m := rfl
  rw [hpre]
  simp only [decodePayload]
  rw [if_pos (show _ ∧ _ ∧ _ ∧ _ from ⟨by simp, by simp, by simp, by simp⟩)]
  have hp3 : parseNat [digitToChar (checksum (encodePre bs m) / 100),
      digitToChar (checksum (encodePre bs m) / 10 % 10),
      digitToChar (checksum (encodePre bs m) % 10)] =
      some (checksum (encodePre bs m)) := by
    have := parseNat_render3 hck
    simpa [render3] using this
  rw [if_pos hp3, parseFields_encodeBody hval]
  have hb35 : decodeBody35 specs ((35, m.msgType) :: itemsRaw m.items) =
      some m := by
    have hmv : itemsValid specs m.items = true := by
      simp only [msgValid, Bool.and_eq_true] at hval
      exact hval.2
    rw [decodeBody35, parseItems_itemsRaw specs m.items hmv, Option.map_some']
  rw [Option.elim_some, hb35, Option.elim_some]
  have hlen : (encodeMsg bs m).length = (encodePre bs m).length + 7 := by
    rw [encodeMsg, htrailer]
    simp
  rw [hlen]

/-- A complete frame whose CheckSum field does not match the byte sum of
everything before it is a FramingError, whatever else it contains. -/
theorem decode_badChecksum (specs : List GroupSpec) (bs : List Char)
    (m : Message) (x y z : Char) (hbs : sohFree bs = true)
    (hbad : parseNat [x, y, z] ≠ some (checksum (encodePre bs m))) :
    decode specs (encodePre bs m ++ ['1', '0', '=', x, y, z, SOH]) = .err := by
  have hmsg : encodePre bs m ++ ['1', '0', '=', x, y, z, SOH] =
      (encodeField (8, bs) ++
        encodeField (9, renderNat (encodeBody m).length) ++ encodeBody m) ++
      (['1', '0', '=', x, y, z, SOH] ++ []) := by
    rw [encodePre]
    simp
  rw [hmsg, decode_shape specs bs (encodeBody m) _ [] (by simp) hbs]
  have hpre : encodeField (8, bs) ++
      encodeField (9, renderNat (encodeBody m).length) ++ encodeBody m =
      encodePre bs m := rfl
  rw [hpre]
  simp only [decodePayload]
  rw [if_pos (show _ ∧ _ ∧ _ ∧ _ from ⟨by simp, by simp, by simp, by simp⟩)]
  rw [if_neg hbad]

/-- Scanning the empty buffer asks for more bytes. -/
theorem scanField_nil : scanField [] = .more := rfl

/-- Unfolding of the field encoder into scan-friendly shape. -/
theorem encodeField_eq (f : RawField) :
    encodeField f = renderNat f.1 ++ '=' :: (f.2 ++ [SOH]) := rfl

/-- Decoding any strict prefix of a well-framed buffer (header + body of
declared length + 7-byte trailer) reports `incomplete`: an incremental
decoder never errors or consumes on a truncated valid frame. -/
theorem decode_prefix_shape (specs : List GroupSpec)
    (bs body t7 p : List Char) (ht7 : t7.length = 7)
    (hbs : sohFree bs = true)
    (hp : p <+: (encodeField (8, bs) ++
      encodeField (9, renderNat body.length) ++ body) ++ t7)
    (hne : p ≠ (encodeField (8, bs) ++
      encodeField (9, renderNat body.length) ++ body) ++ t7) :
    decode specs p = .incomplete := by
  set f8 := encodeField (8, bs) with hf8
  set f9 := encodeField (9, renderNat body.length) with hf9
  have hbsS : ∀ x ∈ bs, x ≠ SOH := sohFree_iff.mp hbs
  have hv9 : ∀ x ∈ renderNat body.length, x ≠ SOH := fun x hx =>
    isDigit_ne_SOH (renderNat_all_digit _ x hx)
  have hassoc : (f8 ++ f9 ++ body) ++ t7 = f8 ++ (f9 ++ (body ++ t7)) := by
    simp [List.append_assoc]
  rw [hassoc] at hp hne
  rcases prefix_append_cases p f8 (f9 ++ (body ++ t7)) hp with hA | ⟨q, rfl, hq⟩
  · -- p within the BeginString field
    by_cases hpf8 : p = f8
    · subst hpf8
      have hscan1 : scanField (f8 ++ []) = .done 8 bs [] :=
        scanField_encodeField (8, bs) [] hbsS
      rw [List.append_nil] at hscan1
      simp [decode, hscan1, scanField_nil]
    · have hscanp : scanField p = .more := by
        refine scanField_truncated (parseNat_renderNat 8) hbsS ?_ ?_
        · rw [← encodeField_eq (8, bs)]
          exact hA
        · rw [← encodeField_eq (8, bs)]
          exact hpf8
      simp [decode, hscanp]
  · -- the BeginString field is complete
    have hscan1 : scanField (f8 ++ q) = .done 8 bs q :=
      scanField_encodeField (8, bs) q hbsS
    rcases prefix_append_cases q f9 (body ++ t7) hq with hB | ⟨r, rfl, hr⟩
    · by_cases hqf9 : q = f9
      · subst hqf9
        have hscan2 : scanField (f9 ++ []) =
            .done 9 (renderNat body.length) [] :=
          scanField_encodeField (9, renderNat body.length) [] hv9
        rw [List.append_nil] at hscan2
        have hlt : ([] : List Char).length < body.length + 7 := by simp
        simp [decode, hscan1, hscan2, parseNat_renderNat, hlt]
      · have hscanq : scanField q = .more := by
          refine scanField_truncated (parseNat_renderNat 9) hv9 ?_ ?_
          · rw [← encodeField_eq (9, renderNat body.length)]
            exact hB
          · rw [← encodeField_eq (9, renderNat body.length)]
            exact hqf9
        simp [decode, hscan1, hscanq]
    · -- header complete, body/trailer truncated
      have hscan2 : scanField (f9 ++ r) = .done 9 (renderNat body.length) r :=
        scanField_encodeField (9, renderNat body.length) r hv9
      have hrne : r ≠ body ++ t7 := by
        intro hcontra
        exact hne (by rw [hcontra])
      have hrlen : r.length < body.length + 7 := by
        have h1 := hr.length_le
        simp only [List.length_append, ht7] at h1
        rcases Nat.lt_or_ge r.length (body.length + 7) with h2 | h2
        · exact h2
        · exfalso
          refine hrne (hr.eq_of_length ?_)
          simp only [List.length_append, ht7]
          omega
      simp [decode, hscan1, hscan2, parseNat_renderNat, hrlen]

/-- Any strict prefix of an encoded message decodes as `incomplete`. -/
theorem decode_prefix_encodeMsg (specs : List GroupSpec) (bs : List Char)
    (m : Message) (p : List Char) (hbs : sohFree bs = true)
    (hp : p <+: encodeMsg bs m) (hne : p ≠ encodeMsg bs m) :
    decode specs p = .incomplete := by
  have hshape : encodeMsg bs m = (encodeField (8, bs) ++
      encodeField (9, renderNat (encodeBody m).length) ++ encodeBody m) ++
      encodeField (10, render3 (checksum (encodePre bs m))) := rfl
  have ht7 : (encodeField (10, render3 (checksum (encodePre bs m)))).length = 7 := by
    rw [trailer_shape]
    rfl
  rw [hshape] at hp hne
  exact decode_prefix_shape specs bs (encodeBody m) _ p ht7 hbs hp hne

/-! ## Incremental feeding, one byte at a time

Modelled from the spec (§4.1): the decoder operates over a growing
caller-supplied buffer; partial reads are fed repeatedly, `incomplete`
consumes nothing, and a decoded message consumes its frame. -/

/-- State of an incremental feed: pending buffer, decoded messages in
order, and whether a FramingError has occurred. -/
structure FeedState where
  buf : List Char
  msgs : List Message
  errored : Bool
deriving DecidableEq, Repr

/-- Feed a single byte: append it to the buffer and attempt a decode.
`incomplete` consumes nothing; a complete message consumes its bytes. -/
def feedByte (specs : List GroupSpec) (st : FeedState) (c : Char) : FeedState :=
  let buf := st.buf ++ [c]
  match decode specs buf with
  | .incomplete => { st with buf := buf }
  | .err => { buf := buf, msgs := st.msgs, errored := true }
  | .msg m n => { buf := buf.drop n, msgs := st.msgs ++ [m], errored := st.errored }

/-- Feed a byte sequence one byte at a time. -/
def feedBytes (specs : List GroupSpec) (st : FeedState) (bytes : List Char) :
    FeedState :=
  bytes.foldl (feedByte specs) st

theorem feedBytes_append (specs : List GroupSpec) (st : FeedState)
    (xs ys : List Char) :
    feedBytes specs st (xs ++ ys) = feedBytes specs (feedBytes specs st xs) ys := by
  simp only [feedBytes, List.foldl_append]

/-- Feeding the tail of one encoded message byte-by-byte, starting from
the buffered front part, ends with the message decoded and an empty
buffer. -/
theorem feedBytes_chunk (specs : List GroupSpec) (bs : List Char)
    (m : Message) (hval : msgValid specs m = true)
    (hbs : sohFree bs = true) :
    ∀ (rest front : List Char) (ms : List Message) (e : Bool),
      front ++ rest = encodeMsg bs m → rest ≠ [] →
      feedBytes specs ⟨front, ms, e⟩ rest = ⟨[], ms ++ [m], e⟩ := by
  intro rest
  induction rest with
  | nil => intro front ms e _ hne; exact absurd rfl hne
  | cons c rest ih =>
    intro front ms e hsplit _
    have hstep : feedBytes specs ⟨front, ms, e⟩ (c :: rest) =
        feedBytes specs (feedByte specs ⟨front, ms, e⟩ c) rest := rfl
    rw [hstep]
    cases rest with
    | nil =>
      -- last byte: the buffer is the whole encoded message
      have hfull : front ++ [c] = encodeMsg bs m := by
        simpa using hsplit
      have hdec : decode specs (front ++ [c]) = .msg m (encodeMsg bs m).length := by
        have := decode_encodeMsg specs bs m [] hval hbs
        rw [List.append_nil] at this
        rw [hfull, this]
      simp only [feedByte, hdec, feedBytes, List.foldl_nil]
      have hdrop : (front ++ [c]).drop (encodeMsg bs m).length = [] := by
        rw [hfull]
        simp
      rw [hdrop]
    | cons c' rest' =>
      -- middle byte: the buffer is a strict prefix, decode is incomplete
      have hpre : (front ++ [c]) ++ (c' :: rest') = encodeMsg bs m := by
        simpa using hsplit
      have hisp : front ++ [c] <+: encodeMsg bs m := ⟨c' :: rest', hpre⟩
      have hnef : front ++ [c] ≠ encodeMsg bs m := by
        intro hcontra
        have := congrArg List.length hpre
        rw [hcontra] at this
        simp at this
      have hdec : decode specs (front ++ [c]) = .incomplete :=
        decode_prefix_encodeMsg specs bs m _ hbs hisp hnef
      simp only [feedByte, hdec]
      exact ih (front ++ [c]) ms e hpre (by simp)

/-- Feeding one whole encoded message byte-by-byte from an empty buffer. -/
theorem feedBytes_one (specs : List GroupSpec) (bs : List Char)
    (m : Message) (ms : List Message) (e : Bool)
    (hval : msgValid specs m = true) (hbs : sohFree bs = true) :
    feedBytes specs ⟨[], ms, e⟩ (encodeMsg bs m) = ⟨[], ms ++ [m], e⟩ := by
  refine feedBytes_chunk specs bs m hval hbs (encodeMsg bs m) [] ms e rfl ?_
  intro hcontra
  rw [encodeMsg, encodePre] at hcontra
  simp only [List.append_eq_nil] at hcontra
  exact encodeField_ne_nil (8, bs) hcontra.1.1.1

/-- Feeding the concatenation of encoded messages, one byte at a time,
decodes exactly those messages in order with no error and empty buffer. -/
theorem feedBytes_stream (specs : List GroupSpec) (bs : List Char)
    (hbs : sohFree bs = true) :
    ∀ (msgs acc : List Message),
      (∀ m ∈ msgs, msgValid specs m = true) →
      feedBytes specs ⟨[], acc, false⟩
          ((msgs.map (encodeMsg bs)).flatten) =
        ⟨[], acc ++ msgs, false⟩ := by
  intro msgs
  induction msgs with
  | nil => intro acc _; simp [feedBytes]
  | cons m rest ih =>
    intro acc hval
    have hflat : ((m :: rest).map (encodeMsg bs)).flatten =
        encodeMsg bs m ++ (rest.map (encodeMsg bs)).flatten := by
      simp
    rw [hflat, feedBytes_append,
      feedBytes_one specs bs m acc false (hval m (by simp)) hbs,
      ih (acc ++ [m]) (fun x hx => hval x (by simp [hx]))]
    simp

/-! ## Session engine model

Modelled from the spec (§3 SessionState, §4.2 Sequence Tracker, §4.3
Session State Machine): session lifecycle states, inbound sequence
tracking with gap detection and resend requests, holding of inbound
dispatch while a gap is open, and release once the gap is filled or
waived by a SequenceReset/GapFill. -/

/-- Session lifecycle states (spec §3). -/
inductive SessState where
  | Disconnected | LogonPending | Active | LogoutPending | Reconnecting
deriving DecidableEq, Repr

/-- Administrative message kinds handled inside the engine (spec §4.3);
SequenceReset/GapFill carries the NewSeqNo that waives a gap. -/
inductive AdminKind where
  | logon | logout | heartbeat | testRequest | resendRequest | reject
  | seqResetGapFill (newSeq : Nat)
deriving DecidableEq, Repr

/-- Message classification: administrative, or an application message
type. -/
inductive MType where
  | admin (k : AdminKind)
  | app (t : List Char)
deriving DecidableEq, Repr

/-- An inbound message as seen by the sequence tracker: sequence number
and classification. -/
structure InMsg where
  seq : Nat
  mtype : MType
deriving DecidableEq, Repr

/-- Engine state: lifecycle state, next outbound sequence number to
assign, next expected inbound sequence number, the pending resend range,
and inbound messages held while a gap is open (spec §3 SessionState). -/
structure EngState where
  sess : SessState
  outSeq : Nat
  inExpected : Nat
  gap : Option (Nat × Nat)
  held : List InMsg
deriving DecidableEq, Repr

/-- Observable engine reactions to inbound traffic: an emitted
ResendRequest for a range, or a message delivered to the Application
Boundary's inbound decision point. -/
inductive EngOut where
  | resendRequest (b e : Nat)
  | toApp (m : InMsg)
deriving DecidableEq, Repr

/-- Modelled from the spec: once a gap closes, dispatch held messages
whose sequence numbers are now expected, in sequence order (§4.2 "hold
subsequent inbound processing until the gap is filled").  Fuel-driven;
the held-list length suffices since each round removes one message. -/
def drain : Nat → EngState → EngState × List EngOut
  | 0, st => (st, [])
  | fuel + 1, st =>
    match st.held.find? (fun m => m.seq == st.inExpected) with
    | none => (st, [])
    | some m =>
      let st1 := { st with
        inExpected := st.inExpected + 1,
        held := st.held.eraseP (fun x => x.seq == st.inExpected) }
      let r := drain fuel st1
      (r.1, .toApp m :: r.2)

/-- Close the pending resend range once the expected counter has moved
past its end. -/
def closeGapIfFilled (st : EngState) : EngState :=
  match st.gap with
  | some (_, e) => if e < st.inExpected then { st with gap := none } else st
  | none => st

/-- Modelled from the spec: process one inbound message (§4.2 policy).
`received == expected` advances and dispatches (and, if that filled the
gap, releases held messages); `received < expected` is a duplicate,
silently discarded; `received > expected` with no open gap emits one
ResendRequest for `[expected, received-1]` and holds the message; while
a gap is open further messages are held without another request.
Administrative messages are handled internally and never dispatched;
SequenceReset/GapFill advances the expected counter to NewSeqNo, waiving
the gap it covers. -/
def receive (st : EngState) (m : InMsg) : EngState × List EngOut :=
  match m.mtype with
  | .admin (.seqResetGapFill ns) =>
    if st.inExpected < ns then
      let st1 := closeGapIfFilled { st with inExpected := ns }
      match st1.gap with
      | none => drain st1.held.length st1
      | some _ => (st1, [])
    else (st, [])
  | .admin _ => (st, [])
  | .app _ =>
    if m.seq = st.inExpected then
      let st1 := closeGapIfFilled { st with inExpected := m.seq + 1 }
      match st1.gap with
      | none =>
        let r := drain st1.held.length st1
        (r.1, .toApp m :: r.2)
      | some _ => (st1, [.toApp m])
    else if m.seq < st.inExpected then
      (st, [])
    else
      match st.gap with
      | none =>
        ({ st with
            gap := some (st.inExpected, m.seq - 1),
            held := st.held ++ [m] },
          [.resendRequest st.inExpected (m.seq - 1)])
      | some _ => ({ st with held := st.held ++ [m] }, [])

/-- Run the inbound path over a message list, accumulating outputs. -/
def runIn (st : EngState) : List InMsg → EngState × List EngOut
  | [] => (st, [])
  | m :: rest =>
    let r := receive st m
    let r2 := runIn r.1 rest
    (r2.1, r.2 ++ r2.2)

/-! ## Application boundary

Translated from `src/hotfix/protocol.py`: the `Application` protocol has
exactly four required methods — `on_logon`, `on_logout(reason)`,
`on_inbound_message(msg) -> InboundDecision` and
`on_outbound_message(msg) -> OutboundDecision`. -/

/-- Inbound decision values (`hotfix_core.InboundDecision`). -/
inductive InboundDecision where
  | Accept | TerminateSession
deriving DecidableEq, Repr

/-- Outbound decision values (`hotfix_core.OutboundDecision`). -/
inductive OutboundDecision where
  | Send | Drop | TerminateSession
deriving DecidableEq, Repr

/-- The application callback interface: exactly the four operations of
`hotfix.protocol.Application`. -/
structure Application where
  on_logon : Unit → Unit
  on_logout : List Char → Unit
  on_inbound_message : Message → InboundDecision
  on_outbound_message : Message → OutboundDecision

/-- Build an `Application` from any host type carrying the four
methods (duck typing: implementing the four operations suffices). -/
def appOfHost {H : Type} (self : H)
    (logon : H → Unit → Unit) (logout : H → List Char → Unit)
    (inb : H → Message → InboundDecision)
    (outb : H → Message → OutboundDecision) : Application :=
  ⟨logon self, logout self, inb self, outb self⟩

/-! Translated from `src/examples/simple_new_order.py`: `MyApplication`
defines the four methods as static methods; its decisions are always
`Accept` inbound and `Send` outbound (the Python methods also print,
which is outside the model). -/

def MyApplication.on_logon : Unit → Unit := fun _ => ()

def MyApplication.on_logout : List Char → Unit := fun _ => ()

def MyApplication.on_inbound_message : Message → InboundDecision :=
  fun _ => .Accept

def MyApplication.on_outbound_message : Message → OutboundDecision :=
  fun _ => .Send

/-- The example's application object, satisfying the interface without
any inheritance. -/
def myApplication : Application :=
  ⟨MyApplication.on_logon, MyApplication.on_logout,
    MyApplication.on_inbound_message, MyApplication.on_outbound_message⟩

/-! ## Outbound path and session handle

Modelled from the spec (§4.4, §6): the outbound decision point runs
before sequence assignment, so Drop never consumes a sequence number;
the host-facing session handle exposes `start(config)`, `send(Message)`
and `stop()`. -/

/-- Assign a sequence number to an outbound message (MsgSeqNum, tag 34). -/
def assignSeq (m : Message) (seq : Nat) : Message :=
  ⟨m.msgType, .field 34 (renderNat seq) :: m.items⟩

/-- Modelled from the spec: outbound send path.  The on_outbound decision
is taken first; only Send assigns the next outbound sequence number,
increments the counter and produces wire bytes (§4.4). -/
def sendMessage (a : Application) (bs : List Char) (st : EngState)
    (m : Message) : EngState × List Char :=
  match a.on_outbound_message m with
  | .Drop => (st, [])
  | .TerminateSession => ({ st with sess := .Disconnected }, [])
  | .Send =>
    ({ st with outSeq := st.outSeq + 1 }, encodeMsg bs (assignSeq m st.outSeq))

/-- Session configuration (spec §6 configuration inputs). -/
structure SessionConfig where
  beginString : List Char
  heartBtInt : Nat
  senderCompId : List Char
  targetCompId : List Char
  initialOutSeq : Nat
  initialInSeq : Nat

/-- Send failure cases surfaced to the host. -/
inductive SendError where
  | notActive
deriving DecidableEq, Repr

/-- Modelled from the spec: initial engine state from a configuration. -/
def initState (cfg : SessionConfig) : EngState :=
  ⟨.Disconnected, cfg.initialOutSeq, cfg.initialInSeq, none, []⟩

/-- Modelled from the spec: host-facing send returning a Result; outside
Active no bytes are written and an error is returned. -/
def sessionSend (a : Application) (bs : List Char) (st : EngState)
    (m : Message) : EngState × List Char × Except SendError Unit :=
  if st.sess = .Active then
    let r := sendMessage a bs st m
    (r.1, r.2, .ok ())
  else (st, [], .error .notActive)

/-- Modelled from the spec: the host-facing session handle surface —
exactly `start(config)`, `send(Message) -> Result` and `stop()` (§6). -/
structure SessionHandle where
  start : SessionConfig → EngState
  send : EngState → Message → EngState × List Char × Except SendError Unit
  stop : EngState → EngState

/-- The engine's session handle for a given application and BeginString. -/
def mkSessionHandle (a : Application) (bs : List Char) : SessionHandle :=
  { start := initState
  , send := sessionSend a bs
  , stop := fun st => { st with sess := .Disconnected } }

/-! ## Wire-to-engine glue -/

/-- First value of a top-level field with the given tag. -/
def msgField (m : Message) (tag : Nat) : Option (List Char) :=
  m.items.findSome? (fun i =>
    match i with
    | .field t v => if t = tag then some v else none
    | .group _ _ => none)

/-- Numeric value of a top-level field, defaulting to 0. -/
def msgNat (m : Message) (tag : Nat) : Nat :=
  ((msgField m tag).bind parseNat).getD 0

/-- Classify a decoded message by its MsgType code (administrative
codes: Logon A, Logout 5, Heartbeat 0, TestRequest 1, ResendRequest 2,
Reject 3, SequenceReset 4 with NewSeqNo in tag 36). -/
def mtypeOf (m : Message) : MType :=
  if m.msgType = ['A'] then .admin .logon
  else if m.msgType = ['5'] then .admin .logout
  else if m.msgType = ['0'] then .admin .heartbeat
  else if m.msgType = ['1'] then .admin .testRequest
  else if m.msgType = ['2'] then .admin .resendRequest
  else if m.msgType = ['3'] then .admin .reject
  else if m.msgType = ['4'] then .admin (.seqResetGapFill (msgNat m 36))
  else .app m.msgType

/-- Modelled from the spec: react to a buffer decode attempt.  A
FramingError is session-fatal (drives the session toward logout) but
advances no sequence counter; `incomplete` does nothing; a decoded
message goes through the sequence tracker (§4.1, §7). -/
def onWire (specs : List GroupSpec) (st : EngState) (buf : List Char) :
    EngState × List EngOut :=
  match decode specs buf with
  | .incomplete => (st, [])
  | .err => ({ st with sess := .LogoutPending }, [])
  | .msg m _ => receive st ⟨msgNat m 34, mtypeOf m⟩

/-! ## Inbound safety invariants -/

/-- Is a classification an application (non-administrative) type? -/
def isAppM : MType → Bool
  | .app _ => true
  | .admin _ => false

/-- An output is admissible if any message it delivers to the
application is non-administrative. -/
def appOut : EngOut → Bool
  | .toApp m => isAppM m.mtype
  | .resendRequest _ _ => true

/-- Sequence numbers of the messages dispatched to the application, in
dispatch order. -/
def outSeqs (outs : List EngOut) : List Nat :=
  outs.filterMap (fun o =>
    match o with
    | .toApp m => some m.seq
    | .resendRequest _ _ => none)

theorem outSeqs_append (a b : List EngOut) :
    outSeqs (a ++ b) = outSeqs a ++ outSeqs b := by
  simp [outSeqs]

/-- Run invariant: dispatched sequence numbers are strictly increasing
and below the expected counter, held messages are application messages,
and no administrative message has been dispatched. -/
def EngInv (st : EngState) (outs : List EngOut) : Prop :=
  List.Chain' (· < ·) (outSeqs outs) ∧
  (∀ s ∈ outSeqs outs, s < st.inExpected) ∧
  (∀ m ∈ st.held, isAppM m.mtype = true) ∧
  (∀ o ∈ outs, appOut o = true)

theorem chain_lt_append {l : List Nat} {a : Nat}
    (h : List.Chain' (· < ·) l) (ha : ∀ s ∈ l, s < a) :
    List.Chain' (· < ·) (l ++ [a]) := by
  induction l with
  | nil => simp
  | cons x xs ih =>
    cases xs with
    | nil =>
      simp only [List.cons_append, List.nil_append]
      exact List.chain'_cons.mpr ⟨ha x (by simp), by simp⟩
    | cons y ys =>
      rw [List.cons_append]
      refine List.chain'_cons.mpr ⟨?_, ?_⟩
      · exact (List.chain'_cons.mp h).1
      · exact ih (List.chain'_cons.mp h).2 (fun s hs => ha s (by simp [List.mem_cons] at hs ⊢; tauto))

theorem closeGap_inExpected (st : EngState) :
    (closeGapIfFilled st).inExpected = st.inExpected := by
  unfold closeGapIfFilled
  cases st.gap with
  | none => rfl
  | some p =>
    obtain ⟨b, e⟩ := p
    by_cases h : e < st.inExpected <;> simp [h]

theorem closeGap_held (st : EngState) :
    (closeGapIfFilled st).held = st.held := by
  unfold closeGapIfFilled
  cases st.gap with
  | none => rfl
  | some p =>
    obtain ⟨b, e⟩ := p
    by_cases h : e < st.inExpected <;> simp [h]

/-- Draining preserves the run invariant. -/
theorem drain_inv :
    ∀ (fuel : Nat) (st : EngState) (outs : List EngOut),
      EngInv st outs →
      EngInv (drain fuel st).1 (outs ++ (drain fuel st).2) := by
  intro fuel
  induction fuel with
  | zero => intro st outs h; simpa [drain] using h
  | succ fuel ih =>
    intro st outs h
    obtain ⟨hchain, hbound, hheld, happ⟩ := h
    cases hf : st.held.find? (fun m => m.seq == st.inExpected) with
    | none => simpa [drain, hf] using ⟨hchain, hbound, hheld, happ⟩
    | some m =>
      have hm : m.seq = st.inExpected := by
        have := List.find?_some hf
        simpa using this
      have hmem : m ∈ st.held := List.mem_of_find?_eq_some hf
      simp only [drain, hf]
      have key : EngInv
          (drain fuel { st with
            inExpected := st.inExpected + 1,
            held := st.held.eraseP (fun x => x.seq == st.inExpected) }).1
          ((outs ++ [EngOut.toApp m]) ++
            (drain fuel { st with
              inExpected := st.inExpected + 1,
              held := st.held.eraseP (fun x => x.seq == st.inExpected) }).2) := by
        refine ih _ (outs ++ [EngOut.toApp m]) ?_
        refine ⟨?_, ?_, ?_, ?_⟩
        · rw [outSeqs_append]
          refine chain_lt_append hchain ?_
          intro s hs
          have := hbound s hs
          simpa [outSeqs, hm] using this
        · intro s hs
          rw [outSeqs_append, List.mem_append] at hs
          rcases hs with hs | hs
          · have := hbound s hs
            simp only []
            omega
          · simp only [outSeqs, List.filterMap_cons, List.filterMap_nil] at hs
            simp only [List.mem_singleton] at hs
            subst hs
            simp only []
            omega
        · intro x hx
          simp only [] at hx
          have hsub : List.Sublist (st.held.eraseP (fun y => y.seq == st.inExpected))
              st.held := List.eraseP_sublist _
          exact hheld x (hsub.subset hx)
        · intro o ho
          rcases List.mem_append.mp ho with ho | ho
          · exact happ o ho
          · rw [List.mem_singleton] at ho
            subst ho
            simpa [appOut] using hheld m hmem
      rw [List.append_assoc] at key
      simpa using key

/-- Processing one inbound message preserves the run invariant. -/
theorem receive_inv (st : EngState) (m : InMsg) (outs : List EngOut)
    (h : EngInv st outs) :
    EngInv (receive st m).1 (outs ++ (receive st m).2) := by
  obtain ⟨hchain, hbound, hheld, happ⟩ := h
  have htriv : EngInv st (outs ++ []) := by
    rw [List.append_nil]
    exact ⟨hchain, hbound, hheld, happ⟩
  cases hmt : m.mtype with
  | admin k =>
    cases k with
    | seqResetGapFill ns =>
      simp only [receive, hmt]
      by_cases hns : st.inExpected < ns
      · rw [if_pos hns]
        have h1 : (closeGapIfFilled { st with inExpected := ns }).inExpected = ns := by
          rw [closeGap_inExpected]
        have h2 : (closeGapIfFilled { st with inExpected := ns }).held = st.held := by
          rw [closeGap_held]
        have hinv1 : EngInv (closeGapIfFilled { st with inExpected := ns }) outs := by
          refine ⟨hchain, ?_, ?_, happ⟩
          · intro s hs
            rw [h1]
            exact lt_trans (hbound s hs) hns
          · rw [h2]
            exact hheld
        cases hg : (closeGapIfFilled { st with inExpected := ns }).gap with
        | none =>
          simp only [hg]
          exact drain_inv _ _ outs hinv1
        | some g =>
          simp only [hg]
          rw [List.append_nil]
          exact hinv1
      · rw [if_neg hns]
        exact htriv
    | logon => simp only [receive, hmt]; exact htriv
    | logout => simp only [receive, hmt]; exact htriv
    | heartbeat => simp only [receive, hmt]; exact htriv
    | testRequest => simp only [receive, hmt]; exact htriv
    | resendRequest => simp only [receive, hmt]; exact htriv
    | reject => simp only [receive, hmt]; exact htriv
  | app t =>
    simp only [receive, hmt]
    by_cases he : m.seq = st.inExpected
    · rw [if_pos he]
      have h1 : (closeGapIfFilled { st with inExpected := m.seq + 1 }).inExpected =
          m.seq + 1 := by
        rw [closeGap_inExpected]
      have h2 : (closeGapIfFilled { st with inExpected := m.seq + 1 }).held =
          st.held := by
        rw [closeGap_held]
      have hinv1 : EngInv (closeGapIfFilled { st with inExpected := m.seq + 1 })
          (outs ++ [EngOut.toApp m]) := by
        refine ⟨?_, ?_, ?_, ?_⟩
        · rw [outSeqs_append]
          refine chain_lt_append hchain ?_
          intro s hs
          have := hbound s hs
          simpa [outSeqs, he] using this
        · intro s hs
          rw [outSeqs_append, List.mem_append] at hs
          rw [h1]
          rcases hs with hs | hs
          · have := hbound s hs
            omega
          · simp only [outSeqs, List.filterMap_cons, List.filterMap_nil,
              List.mem_singleton] at hs
            omega
        · rw [h2]
          exact hheld
        · intro o ho
          rcases List.mem_append.mp ho with ho | ho
          · exact happ o ho
          · rw [List.mem_singleton] at ho
            subst ho
            simp [appOut, isAppM, hmt]
      cases hg : (closeGapIfFilled { st with inExpected := m.seq + 1 }).gap with
      | none =>
        simp only [hg]
        have key := drain_inv
          (closeGapIfFilled { st with inExpected := m.seq + 1 }).held.length
          (closeGapIfFilled { st with inExpected := m.seq + 1 })
          (outs ++ [EngOut.toApp m]) hinv1
        rw [List.append_assoc] at key
        simpa using key
      | some g =>
        simp only [hg]
        exact hinv1
    · rw [if_neg he]
      by_cases hlt : m.seq < st.inExpected
      · rw [if_pos hlt]
        exact htriv
      · rw [if_neg hlt]
        cases hg : st.gap with
        | none =>
          simp only [hg]
          refine ⟨?_, ?_, ?_, ?_⟩
          · rw [outSeqs_append]
            simpa [outSeqs] using hchain
          · intro s hs
            rw [outSeqs_append] at hs
            simp only [outSeqs, List.filterMap_cons, List.filterMap_nil,
              List.append_nil] at hs
            exact hbound s hs
          · intro x hx
            simp only [] at hx
            rcases List.mem_append.mp hx with hx | hx
            · exact hheld x hx
            · rw [List.mem_singleton] at hx
              subst hx
              simp [isAppM, hmt]
          · intro o ho
            rcases List.mem_append.mp ho with ho | ho
            · exact happ o ho
            · rw [List.mem_singleton] at ho
              subst ho
              rfl
        | some g =>
          simp only [hg]
          refine ⟨?_, ?_, ?_, ?_⟩
          · rw [List.append_nil]
            exact hchain
          · intro s hs
            rw [List.append_nil] at hs
            exact hbound s hs
          · intro x hx
            simp only [] at hx
            rcases List.mem_append.mp hx with hx | hx
            · exact hheld x hx
            · rw [List.mem_singleton] at hx
              subst hx
              simp [isAppM, hmt]
          · intro o ho
            rw [List.append_nil] at ho
            exact happ o ho

/-- Running the inbound path preserves the run invariant. -/
theorem runIn_inv :
    ∀ (msgs : List InMsg) (st : EngState) (outs : List EngOut),
      EngInv st outs →
      EngInv (runIn st msgs).1 (outs ++ (runIn st msgs).2) := by
  intro msgs
  induction msgs with
  | nil => intro st outs h; simpa [runIn] using h
  | cons m rest ih =>
    intro st outs h
    simp only [runIn]
    have key := ih (receive st m).1 (outs ++ (receive st m).2)
      (receive_inv st m outs h)
    rw [List.append_assoc] at key
    exact key

/-! ## Concrete fixtures used by witnesses -/

/-- A one-group dictionary (NoPartyIDs-style: count 453, delimiter 448,
members 448/447/452). -/
def wSpecs : List GroupSpec := [⟨453, 448, [448, 447, 452]⟩]

/-- BeginString `FIX.4.4`. -/
def wBegin : List Char := ['F', 'I', 'X', '.', '4', '.', '4']

/-- A valid NewOrderSingle-style message with a two-entry repeating
group. -/
def wMsg : Message :=
  ⟨['D'],
   [.field 11 ['X'],
    .group 453 [[(448, ['A']), (447, ['B'])], [(448, ['C'])]],
    .field 55 ['E', 'U', 'R']]⟩

/-- A second valid message (ExecutionReport-style, no group). -/
def wMsg2 : Message := ⟨['8'], [.field 11 ['Y']]⟩

/-- A concrete engine state. -/
def wSt : EngState := ⟨.Active, 7, 5, none, []⟩

/-- An application whose outbound decision is always Drop. -/
def dropApp : Application :=
  ⟨fun _ => (), fun _ => (), fun _ => .Accept, fun _ => .Drop⟩

/-- Initial state for the gap scenario: Active, next inbound expected 1. -/
def gapInit : EngState := ⟨.Active, 1, 1, none, []⟩

/-- An application message with the given sequence number. -/
def appMsg (n : Nat) : InMsg := ⟨n, .app ['D']⟩

/-- The inbound arrivals 1, 2, 4, 5 of the gap scenario. -/
def gapScenarioIn : List InMsg := [appMsg 1, appMsg 2, appMsg 4, appMsg 5]

/-! ## Claim theorems -/

/-- C1: for every valid Message M (well-formed fields and repeating
groups), decoding the byte sequence produced by encoding M reproduces
M's fields and groups exactly — `decode(encode(M))` returns M and
consumes the whole frame. -/
theorem claim_codec_roundtrip (specs : List GroupSpec) (bs : List Char)
    (m : Message) (hval : msgValid specs m = true)
    (hbs : sohFree bs = true) :
    decode specs (encodeMsg bs m) = .msg m (encodeMsg bs m).length := by
  have := decode_encodeMsg specs bs m [] hval hbs
  simpa using this

theorem claim_codec_roundtrip_witness :
    msgValid wSpecs wMsg = true ∧ sohFree wBegin = true ∧
      decode wSpecs (encodeMsg wBegin wMsg) =
        .msg wMsg (encodeMsg wBegin wMsg).length :=
  ⟨by decide, by decide,
    claim_codec_roundtrip wSpecs wBegin wMsg (by decide) (by decide)⟩

/-- C2: feeding the concatenation of N encoded messages one byte at a
time yields exactly those N messages, in order, with no FramingError and
an empty final buffer; and on any strict prefix of a message's encoding
(in particular while fewer bytes than the declared BodyLength requires
are buffered) decode reports `incomplete`, which consumes zero bytes. -/
theorem claim_incremental_stream (specs : List GroupSpec) (bs : List Char)
    (msgs : List Message)
    (hval : ∀ m ∈ msgs, msgValid specs m = true)
    (hbs : sohFree bs = true) :
    feedBytes specs ⟨[], [], false⟩ ((msgs.map (encodeMsg bs)).flatten) =
      ⟨[], msgs, false⟩ ∧
    (∀ m ∈ msgs, ∀ p, p <+: encodeMsg bs m → p ≠ encodeMsg bs m →
      decode specs p = .incomplete) := by
  constructor
  · have := feedBytes_stream specs bs hbs msgs [] hval
    simpa using this
  · intro m _ p hp hne
    exact decode_prefix_encodeMsg specs bs m p hbs hp hne

theorem claim_incremental_stream_witness :
    feedBytes wSpecs ⟨[], [], false⟩
        (([wMsg, wMsg2].map (encodeMsg wBegin)).flatten) =
      ⟨[], [wMsg, wMsg2], false⟩ :=
  (claim_incremental_stream wSpecs wBegin [wMsg, wMsg2] (by decide)
    (by decide)).1

/-- C3: replacing the three CheckSum digit bytes of an encoded message
with bytes that no longer parse to the modulo-256 byte sum makes decode
fail with a FramingError, and the engine's reaction to that failed
decode leaves both sequence counters unchanged (and dispatches
nothing). -/
theorem claim_checksum_mutation (specs : List GroupSpec) (bs : List Char)
    (m : Message) (st : EngState) (x y z : Char)
    (hbs : sohFree bs = true)
    (hbad : parseNat [x, y, z] ≠ some (checksum (encodePre bs m))) :
    decode specs (encodePre bs m ++ ['1', '0', '=', x, y, z, SOH]) = .err ∧
    (onWire specs st (encodePre bs m ++ ['1', '0', '=', x, y, z, SOH])).1.inExpected
      = st.inExpected ∧
    (onWire specs st (encodePre bs m ++ ['1', '0', '=', x, y, z, SOH])).1.outSeq
      = st.outSeq ∧
    (onWire specs st (encodePre bs m ++ ['1', '0', '=', x, y, z, SOH])).2 = [] := by
  have hdec := decode_badChecksum specs bs m x y z hbs hbad
  refine ⟨hdec, ?_, ?_, ?_⟩ <;> simp [onWire, hdec]

theorem claim_checksum_mutation_witness :
    decode wSpecs (encodePre wBegin wMsg ++ ['1', '0', '=', '9', '9', '9', SOH])
      = .err ∧
    (onWire wSpecs wSt
        (encodePre wBegin wMsg ++ ['1', '0', '=', '9', '9', '9', SOH])).1.inExpected
      = wSt.inExpected ∧
    (onWire wSpecs wSt
        (encodePre wBegin wMsg ++ ['1', '0', '=', '9', '9', '9', SOH])).1.outSeq
      = wSt.outSeq ∧
    (onWire wSpecs wSt
        (encodePre wBegin wMsg ++ ['1', '0', '=', '9', '9', '9', SOH])).2 = [] :=
  claim_checksum_mutation wSpecs wBegin wMsg wSt '9' '9' '9' (by decide)
    (by decide)

/-- C4: with inbound sequence numbers 1,2,4,5 the engine emits exactly
one ResendRequest, for [3,3], upon processing 4; holds dispatch of 4
and 5 while the gap is open; resumes dispatch once a replay of 3 or a
GapFill arrives; and in general a received sequence number above the
expected one (with no gap already open) yields a ResendRequest for
[expected, received-1]. -/
theorem claim_gap_scenario :
    (runIn gapInit gapScenarioIn).2 =
      [.toApp (appMsg 1), .toApp (appMsg 2), .resendRequest 3 3] ∧
    (runIn gapInit [appMsg 1, appMsg 2]).2 =
      [.toApp (appMsg 1), .toApp (appMsg 2)] ∧
    (receive (runIn gapInit [appMsg 1, appMsg 2]).1 (appMsg 4)).2 =
      [.resendRequest 3 3] ∧
    (receive (runIn gapInit [appMsg 1, appMsg 2, appMsg 4]).1 (appMsg 5)).2 = [] ∧
    (receive (runIn gapInit gapScenarioIn).1 (appMsg 3)).2 =
      [.toApp (appMsg 3), .toApp (appMsg 4), .toApp (appMsg 5)] ∧
    (receive (runIn gapInit gapScenarioIn).1 ⟨3, .admin (.seqResetGapFill 4)⟩).2 =
      [.toApp (appMsg 4), .toApp (appMsg 5)] ∧
    (∀ (st : EngState) (m : InMsg) (t : List Char),
      st.gap = none → m.mtype = .app t → st.inExpected < m.seq →
      (receive st m).2 = [.resendRequest st.inExpected (m.seq - 1)]) := by
  refine ⟨by decide, by decide, by decide, by decide, by decide, by decide, ?_⟩
  intro st m t hg hmt hlt
  simp only [receive, hmt]
  rw [if_neg (by omega), if_neg (by omega)]
  simp only [hg]

theorem claim_gap_scenario_witness :
    (receive ⟨.Active, 1, 5, none, []⟩ ⟨9, .app ['D']⟩).2 =
      [.resendRequest 5 8] :=
  claim_gap_scenario.2.2.2.2.2.2 ⟨.Active, 1, 5, none, []⟩ ⟨9, .app ['D']⟩
    ['D'] rfl rfl (by decide)

/-- C5: whenever the on_outbound callback answers Drop, zero bytes are
written and the outbound sequence counter is unchanged — both on the
core send path and through the host-facing send (sequence assignment
happens only after the Drop/Send decision). -/
theorem claim_drop_no_send (a : Application) (bs : List Char)
    (st : EngState) (m : Message)
    (hdrop : a.on_outbound_message m = .Drop) :
    (sendMessage a bs st m).2 = [] ∧
    (sendMessage a bs st m).1.outSeq = st.outSeq ∧
    (sessionSend a bs st m).2.1 = [] ∧
    (sessionSend a bs st m).1.outSeq = st.outSeq := by
  have h1 : sendMessage a bs st m = (st, []) := by
    simp [sendMessage, hdrop]
  refine ⟨by rw [h1], by rw [h1], ?_, ?_⟩
  · by_cases hs : st.sess = .Active
    · simp [sessionSend, hs, h1]
    · simp [sessionSend, hs]
  · by_cases hs : st.sess = .Active
    · simp [sessionSend, hs, h1]
    · simp [sessionSend, hs]

theorem claim_drop_no_send_witness :
    (sendMessage dropApp wBegin wSt wMsg).2 = [] ∧
    (sendMessage dropApp wBegin wSt wMsg).1.outSeq = wSt.outSeq ∧
    (sessionSend dropApp wBegin wSt wMsg).2.1 = [] ∧
    (sessionSend dropApp wBegin wSt wMsg).1.outSeq = wSt.outSeq :=
  claim_drop_no_send dropApp wBegin wSt wMsg rfl

/-- C6: in every reachable inbound execution (any fresh session state,
any arrival sequence), no administrative message is ever delivered to
the application's inbound decision point, and the sequence numbers of
delivered messages are strictly increasing and stay below the expected
counter — each delivery happened exactly when its sequence number
passed validation. -/
theorem claim_admin_never_surfaced (s : SessState) (o i : Nat)
    (msgs : List InMsg) :
    ((runIn ⟨s, o, i, none, []⟩ msgs).2.all appOut = true) ∧
    List.Chain' (· < ·) (outSeqs (runIn ⟨s, o, i, none, []⟩ msgs).2) ∧
    (∀ q ∈ outSeqs (runIn ⟨s, o, i, none, []⟩ msgs).2,
      q < (runIn ⟨s, o, i, none, []⟩ msgs).1.inExpected) := by
  have key := runIn_inv msgs ⟨s, o, i, none, []⟩ []
    ⟨by simp [outSeqs], by simp [outSeqs], by simp, by simp⟩
  rw [List.nil_append] at key
  obtain ⟨hchain, hbound, _, happ⟩ := key
  exact ⟨List.all_eq_true.mpr happ, hchain, hbound⟩

theorem claim_admin_never_surfaced_witness :
    ((runIn ⟨.Active, 1, 1, none, []⟩
        [⟨1, .admin .logon⟩, appMsg 1, ⟨2, .admin .heartbeat⟩, appMsg 2]).2.all
      appOut = true) :=
  (claim_admin_never_surfaced .Active 1 1
    [⟨1, .admin .logon⟩, appMsg 1, ⟨2, .admin .heartbeat⟩, appMsg 2]).1

/-- C7: the application-callback interface consists of exactly the four
operations on_logon, on_logout, on_inbound_message and
on_outbound_message: any four implementations determine one and only one
Application (so implementing all four suffices, and there is nothing
else to implement), a host type's methods induce one directly, and the
example's MyApplication satisfies it without any inheritance. -/
theorem claim_application_interface :
    (∀ (f1 : Unit → Unit) (f2 : List Char → Unit)
        (f3 : Message → InboundDecision) (f4 : Message → OutboundDecision),
      ∃! a : Application, a.on_logon = f1 ∧ a.on_logout = f2 ∧
        a.on_inbound_message = f3 ∧ a.on_outbound_message = f4) ∧
    (∀ (H : Type) (self : H) (l : H → Unit → Unit)
        (lo : H → List Char → Unit) (ib : H → Message → InboundDecision)
        (ob : H → Message → OutboundDecision),
      (appOfHost self l lo ib ob).on_logon = l self ∧
      (appOfHost self l lo ib ob).on_logout = lo self ∧
      (appOfHost self l lo ib ob).on_inbound_message = ib self ∧
      (appOfHost self l lo ib ob).on_outbound_message = ob self) ∧
    (myApplication.on_logon = MyApplication.on_logon ∧
      myApplication.on_logout = MyApplication.on_logout ∧
      myApplication.on_inbound_message = MyApplication.on_inbound_message ∧
      myApplication.on_outbound_message = MyApplication.on_outbound_message) := by
  refine ⟨?_, ?_, ⟨rfl, rfl, rfl, rfl⟩⟩
  · intro f1 f2 f3 f4
    refine ⟨⟨f1, f2, f3, f4⟩, ⟨rfl, rfl, rfl, rfl⟩, ?_⟩
    rintro ⟨g1, g2, g3, g4⟩ ⟨h1, h2, h3, h4⟩
    simp only [] at h1 h2 h3 h4
    rw [h1, h2, h3, h4]
  · intro H self l lo ib ob
    exact ⟨rfl, rfl, rfl, rfl⟩

theorem claim_application_interface_witness :
    ∃! a : Application, a.on_logon = MyApplication.on_logon ∧
      a.on_logout = MyApplication.on_logout ∧
      a.on_inbound_message = MyApplication.on_inbound_message ∧
      a.on_outbound_message = MyApplication.on_outbound_message :=
  claim_application_interface.1 MyApplication.on_logon MyApplication.on_logout
    MyApplication.on_inbound_message MyApplication.on_outbound_message

/-- C8: the host-facing session handle exposes exactly the three
operations start(config), send(Message) returning a Result, and stop():
a handle is determined by those three, and the engine's handle starts
from the configured initial state, sends through the outbound decision
path, and stop drives the session to Disconnected. -/
theorem claim_session_handle (a : Application) (bs : List Char) :
    (∀ h1 h2 : SessionHandle,
      h1 = h2 ↔ (h1.start = h2.start ∧ h1.send = h2.send ∧ h1.stop = h2.stop)) ∧
    (mkSessionHandle a bs).start = initState ∧
    (mkSessionHandle a bs).send = sessionSend a bs ∧
    (∀ st, ((mkSessionHandle a bs).stop st).sess = .Disconnected) := by
  refine ⟨?_, rfl, rfl, fun st => rfl⟩
  intro h1 h2
  constructor
  · rintro rfl
    exact ⟨rfl, rfl, rfl⟩
  · obtain ⟨s1, d1, p1⟩ := h1
    obtain ⟨s2, d2, p2⟩ := h2
    rintro ⟨e1, e2, e3⟩
    simp only [] at e1 e2 e3
    rw [e1, e2, e3]

theorem claim_session_handle_witness :
    (mkSessionHandle myApplication wBegin).start = initState ∧
    ((mkSessionHandle myApplication wBegin).stop wSt).sess = .Disconnected :=
  ⟨(claim_session_handle myApplication wBegin).2.1,
    (claim_session_handle myApplication wBegin).2.2.2 wSt⟩

/-! ## Python-level model: runtime-checkable protocol and the example -/

/-- A Python class as relevant to `isinstance` against a
runtime-checkable Protocol: its name, base-class names, and defined
method names.  Translated from `src/examples/simple_new_order.py` for
`MyApplication`. -/
structure PyClass where
  className : String
  bases : List String
  methods : List String
deriving DecidableEq, Repr

/-- The members of the `Application` Protocol
(`src/hotfix/protocol.py`). -/
def applicationProtocolMembers : List String :=
  ["on_logon", "on_logout", "on_inbound_message", "on_outbound_message"]

/-- Modelled from Python's `runtime_checkable` Protocol semantics (used
by `@runtime_checkable class Application(Protocol)`): `isinstance`
succeeds iff the object provides every protocol member — purely
structural, inheritance plays no role. -/
def isinstanceApplication (c : PyClass) : Bool :=
  applicationProtocolMembers.all (fun n => c.methods.contains n)

/-- The class MyApplication from the example: subclasses only `object`, defines
the four callback methods. -/
def MyApplicationClass : PyClass :=
  ⟨"MyApplication", ["object"],
    ["on_logon", "on_logout", "on_inbound_message", "on_outbound_message"]⟩

/-- C9: the Application protocol is structural and runtime-checkable:
`isinstance` succeeds for MyApplication although it does not inherit
from Application, and in general succeeds exactly when all four methods
are present. -/
theorem claim_runtime_checkable :
    isinstanceApplication MyApplicationClass = true ∧
    MyApplicationClass.bases.contains ("Application") = false ∧
    (∀ c : PyClass,
      isinstanceApplication c = true ↔
        ("on_logon" ∈ c.methods ∧ "on_logout" ∈ c.methods ∧
          "on_inbound_message" ∈ c.methods ∧
          "on_outbound_message" ∈ c.methods)) := by
  refine ⟨by decide, by decide, ?_⟩
  intro c
  simp [isinstanceApplication, applicationProtocolMembers]

theorem claim_runtime_checkable_witness :
    isinstanceApplication ⟨"OtherApp", ["object"],
      ["on_logon", "on_logout", "on_inbound_message", "on_outbound_message",
        "extra_helper"]⟩ = true :=
  (claim_runtime_checkable.2.2 _).mpr (by decide)

/-! ## Python-level model: the example's order builder -/

/-- A `hotfix_core.Message` as used by the example: a MsgType plus
fields appended by `insert` in call order. -/
structure PyMessage where
  msgType : String
  fields : List (Nat × String)
deriving DecidableEq, Repr

/-- The method insert(tag, value) appends a field. -/
def PyMessage.insert (m : PyMessage) (t : Nat) (v : String) : PyMessage :=
  { m with fields := m.fields ++ [(t, v)] }

/-- Python `str.upper()` on ASCII text. -/
def pyUpper (s : String) : String := s.map Char.toUpper

/-- Translated from `src/examples/simple_new_order.py`
(`create_new_order_single`): builds a MsgType "D" message; tag 54 is
"1" when `side.upper() == "BUY"` and "2" otherwise.  The decimal
rendering of the float price and the wall-clock TransactTime are
external inputs, passed as the strings they render to. -/
def create_new_order_single (cl_ord_id symbol side : String) (quantity : Int)
    (price_repr transact_time : String) : PyMessage :=
  let msg : PyMessage := ⟨"D", []⟩
  let msg := msg.insert 11 cl_ord_id
  let msg := msg.insert 55 symbol
  let msg := msg.insert 54 (if pyUpper side = "BUY" then "1" else "2")
  let msg := msg.insert 38 (toString quantity)
  let msg := msg.insert 40 "2"
  let msg := msg.insert 44 price_repr
  let msg := msg.insert 60 transact_time
  msg

/-- First field with the given tag. -/
def PyMessage.getField (m : PyMessage) (t : Nat) : Option String :=
  (m.fields.find? (fun f => f.1 == t)).map (fun f => f.2)

/-- C10: create_new_order_single always returns a MsgType "D" message
whose Side field (tag 54) is "1" exactly when the side string upper-cases
to "BUY", and "2" in every other case — unrecognized side strings are
silently encoded as Sell. -/
theorem claim_new_order_side (cl sym side : String) (qty : Int)
    (pr tt : String) :
    (create_new_order_single cl sym side qty pr tt).msgType = "D" ∧
    (create_new_order_single cl sym side qty pr tt).getField 54 =
      some (if pyUpper side = "BUY" then "1" else "2") ∧
    ((create_new_order_single cl sym side qty pr tt).getField 54 = some ("1") ↔
      pyUpper side = "BUY") := by
  have hget : (create_new_order_single cl sym side qty pr tt).getField 54 =
      some (if pyUpper side = "BUY" then "1" else "2") := by
    simp [create_new_order_single, PyMessage.insert, PyMessage.getField]
  refine ⟨rfl, hget, ?_⟩
  constructor
  · intro h
    by_cases hb : pyUpper side = "BUY"
    · exact hb
    · rw [hget, if_neg hb] at h
      simp at h
  · intro hb
    rw [hget, if_pos hb]

end HotFix
